import Mathlib

/-!
Verification of the research-agent orchestration backend
(`backend/src/agent/{graph,utils,configuration,state}.py`).

The Python sources are shallowly embedded below: pure helper functions become
Lean functions over `String` / `List Char`; the LangGraph controller becomes an
explicit recursion over the sequence of reflection outcomes, with the
state-channel accumulation (`operator.add` reducers declared in `state.py`)
made explicit.
-/

namespace Agent

/-! ## URL Resolver (`utils.resolve_urls`)

```python
prefix = f"https://vertexaisearch.cloud.google.com/id/"
urls = [site.web.uri for site in urls_to_resolve]
resolved_map = {}
for idx, url in enumerate(urls):
    if url not in resolved_map:
        resolved_map[url] = f"{prefix}{id}-{idx}"
return resolved_map
```

A Python `dict` is an insertion-ordered map; we embed it as an association
list to which a binding is appended the first time a key is seen.  The
running `idx` counts *all* elements of the input (duplicates included),
exactly as `enumerate` does.
-/

def urlBase : String := "https://vertexaisearch.cloud.google.com/id/"

def shortUrl (taskId : Nat) (idx : Nat) : String :=
  urlBase ++ toString taskId ++ "-" ++ toString idx

/-- The loop body of `resolve_urls`: `idx` is the `enumerate` counter and
`seen` holds the keys already present in `resolved_map` (in order of
insertion the produced association list is exactly the Python dict). -/
def resolveGo (taskId : Nat) : Nat → List String → List String → List (String × String)
  | _, _, [] => []
  | idx, seen, u :: rest =>
    if u ∈ seen then
      resolveGo taskId (idx + 1) seen rest
    else
      (u, shortUrl taskId idx) :: resolveGo taskId (idx + 1) (u :: seen) rest

def resolve_urls (urls : List String) (taskId : Nat) : List (String × String) :=
  resolveGo taskId 0 [] urls

example :
    resolve_urls ["a", "a", "b"] 5 =
      [("a", "https://vertexaisearch.cloud.google.com/id/5-0"),
       ("b", "https://vertexaisearch.cloud.google.com/id/5-2")] := by
  decide

theorem resolveGo_lookup (taskId : Nat) :
    ∀ (rest seen : List String) (idx : Nat) (u : String), u ∉ seen → u ∈ rest →
      (resolveGo taskId idx seen rest).lookup u =
        some (shortUrl taskId (idx + rest.indexOf u)) := by
  intro rest
  induction rest with
  | nil => intro seen idx u _ hmem; cases hmem
  | cons v rest ih =>
    intro seen idx u hseen hmem
    by_cases huv : u = v
    · subst huv
      rw [resolveGo, if_neg hseen]
      rw [List.lookup_cons_self, List.indexOf_cons_self]
      rfl
    · have hmem' : u ∈ rest := by
        cases hmem with
        | head => exact absurd rfl huv
        | tail _ h => exact h
      have hidx : (v :: rest).indexOf u = rest.indexOf u + 1 :=
        List.indexOf_cons_ne rest (fun h => huv h.symm)
      by_cases hv : v ∈ seen
      · rw [resolveGo, if_pos hv, ih seen (idx + 1) u hseen hmem', hidx]
        ring_nf
      · rw [resolveGo, if_neg hv]
        have hu' : u ∉ v :: seen := by
          intro h
          cases h with
          | head => exact huv rfl
          | tail _ h => exact hseen h
        rw [List.lookup_cons]
        have hne : (u == v) = false := by simp [huv]
        rw [hne]
        rw [ih (v :: seen) (idx + 1) u hu' hmem', hidx]
        ring_nf

theorem resolveGo_keys_mem (taskId : Nat) :
    ∀ (rest seen : List String) (idx : Nat) (u : String),
      u ∈ (resolveGo taskId idx seen rest).map Prod.fst ↔ (u ∈ rest ∧ u ∉ seen) := by
  intro rest
  induction rest with
  | nil => intro seen idx u; simp [resolveGo]
  | cons v rest ih =>
    intro seen idx u
    by_cases hv : v ∈ seen
    · rw [resolveGo, if_pos hv, ih]
      constructor
      · rintro ⟨h1, h2⟩; exact ⟨List.mem_cons_of_mem _ h1, h2⟩
      · rintro ⟨h1, h2⟩
        rcases List.mem_cons.mp h1 with h | h
        · subst h; exact absurd hv h2
        · exact ⟨h, h2⟩
    · rw [resolveGo, if_neg hv]
      by_cases huv : u = v
      · subst huv
        simp [ih, hv]
      · simp [ih, huv]

theorem resolveGo_keys_nodup (taskId : Nat) :
    ∀ (rest seen : List String) (idx : Nat),
      ((resolveGo taskId idx seen rest).map Prod.fst).Nodup := by
  intro rest
  induction rest with
  | nil => intro seen idx; simp [resolveGo]
  | cons v rest ih =>
    intro seen idx
    by_cases hv : v ∈ seen
    · rw [resolveGo, if_pos hv]; exact ih seen (idx + 1)
    · rw [resolveGo, if_neg hv]
      simp only [List.map_cons, List.nodup_cons]
      refine ⟨?_, ih (v :: seen) (idx + 1)⟩
      rw [resolveGo_keys_mem]
      rintro ⟨_, h⟩
      exact h (List.mem_cons_self _ _)

/-- C4 (corrected): `resolve_urls` maps each distinct URI exactly once (keys are
nodup and are exactly the input's members), never remaps a URI seen earlier in
the same call, and maps each distinct URI to
`"https://vertexaisearch.cloud.google.com/id/" ++ taskID ++ "-" ++ i` where `i`
is the position of that URI's *first occurrence in the full input list*
(duplicates included) — not the URI's rank among distinct URIs, as the claim's
parenthetical asserts. -/
theorem c4_url_resolver_first_occurrence (urls : List String) (taskId : Nat) :
    ((resolve_urls urls taskId).map Prod.fst).Nodup ∧
    (∀ v : String, v ∈ (resolve_urls urls taskId).map Prod.fst ↔ v ∈ urls) ∧
    (∀ u : String, u ∈ urls →
      (resolve_urls urls taskId).lookup u = some (shortUrl taskId (urls.indexOf u))) := by
  refine ⟨resolveGo_keys_nodup taskId urls [] 0, ?_, ?_⟩
  · intro v
    rw [resolve_urls, resolveGo_keys_mem]
    simp
  · intro u hu
    rw [resolve_urls, resolveGo_lookup taskId urls [] 0 u (by simp) hu]
    rw [Nat.zero_add]

/-- Witness for C4: in `["x", "y", "x"]` with task id 7, the URI `"y"` (first
seen at position 1) is mapped to the short URL with index 1. -/
theorem c4_url_resolver_first_occurrence_witness :
    (resolve_urls ["x", "y", "x"] 7).lookup "y" = some (shortUrl 7 1) := by
  have h := (c4_url_resolver_first_occurrence ["x", "y", "x"] 7).2.2 "y" (by decide)
  simpa using h

/-- Counterexample to C4 as stated: with input `["a", "a", "b"]` and task id 5,
the second distinct URI `"b"` (rank k = 1 in first-seen order) receives
index 2 — the position of its first occurrence in the duplicate-bearing input —
and not index 1 as the claim's "k-th distinct URI receives index k" requires. -/
theorem c4_url_resolver_counterexample :
    (resolve_urls ["a", "a", "b"] 5).lookup "b" =
      some "https://vertexaisearch.cloud.google.com/id/5-2" ∧
    (resolve_urls ["a", "a", "b"] 5).lookup "b" ≠
      some "https://vertexaisearch.cloud.google.com/id/5-1" := by
  decide

/-! ## Citation Inserter (`utils.insert_citation_markers`)

```python
sorted_citations = sorted(citations_list, key=lambda c: (c["end_index"], c["start_index"]), reverse=True)
modified_text = text
for citation_info in sorted_citations:
    end_idx = citation_info["end_index"]
    marker_to_insert = ""
    for segment in citation_info["segments"]:
        marker_to_insert += f" [\x7bsegment['label']\x7d](\x7bsegment['short_url']\x7d)"
    modified_text = modified_text[:end_idx] + marker_to_insert + modified_text[end_idx:]
return modified_text
```

Text is embedded as `List Char`; Python's `sorted(..., reverse=True)` is a
stable descending sort, embedded as `mergeSort` with the reflexive "key is
lexicographically at least" comparison (ties keep their original order in
both). -/

structure CiteSegment where
  label : List Char
  short_url : List Char
deriving DecidableEq

structure Citation where
  start_index : Nat
  end_index : Nat
  segments : List CiteSegment
deriving DecidableEq

def segMarker (s : CiteSegment) : List Char :=
  " [".toList ++ s.label ++ "](".toList ++ s.short_url ++ ")".toList

def citationMarker (c : Citation) : List Char :=
  (c.segments.map segMarker).flatten

/-- `citeGE a b` holds when the key `(end_index, start_index)` of `a` is
lexicographically at least that of `b`: the comparison realising
`sorted(..., key=lambda c: (end, start), reverse=True)`. -/
def citeGE (a b : Citation) : Bool :=
  decide (b.end_index < a.end_index ∨
    (b.end_index = a.end_index ∧ b.start_index ≤ a.start_index))

/-- One iteration of the insertion loop:
`modified_text[:end_idx] + marker + modified_text[end_idx:]`. -/
def insertOne (t : List Char) (c : Citation) : List Char :=
  t.take c.end_index ++ citationMarker c ++ t.drop c.end_index

def insert_citation_markers (text : List Char) (cits : List Citation) : List Char :=
  (cits.mergeSort citeGE).foldl insertOne text

/-- Spec-side definition ("each insertion performed at the *original*
`end_offset` coordinate"): splicing every marker at its end offset measured in
the unmodified text, processing citations in the given (descending) order. -/
def markerSplice (t : List Char) : List Citation → List Char
  | [] => t
  | c :: cs =>
    markerSplice (t.take c.end_index) cs ++ citationMarker c ++ t.drop c.end_index

theorem markerSplice_append (cs : List Citation) (u v : List Char)
    (h : ∀ c ∈ cs, c.end_index ≤ u.length) :
    markerSplice (u ++ v) cs = markerSplice u cs ++ v := by
  cases cs with
  | nil => rfl
  | cons c cs =>
    have he : c.end_index ≤ u.length := h c (List.mem_cons_self _ _)
    rw [markerSplice, markerSplice,
      List.take_append_of_le_length he, List.drop_append_of_le_length he]
    simp [List.append_assoc]

theorem length_insertOne (t : List Char) (c : Citation) :
    t.length ≤ (insertOne t c).length := by
  have h := List.take_append_drop c.end_index t
  have : (t.take c.end_index).length + (t.drop c.end_index).length = t.length := by
    rw [← List.length_append, h]
  simp only [insertOne, List.length_append]
  omega

theorem sublist_markerSplice (cs : List Citation) : ∀ t : List Char,
    t.Sublist (markerSplice t cs) := by
  induction cs with
  | nil => intro t; exact List.Sublist.refl t
  | cons c cs ih =>
    intro t
    rw [markerSplice]
    conv_lhs => rw [← List.take_append_drop c.end_index t]
    rw [List.append_assoc]
    exact List.Sublist.append (ih _)
      (List.sublist_append_right (citationMarker c) (t.drop c.end_index))

theorem foldl_insertOne_eq_markerSplice :
    ∀ (cs : List Citation) (t : List Char),
      cs.Pairwise (fun a b => b.end_index ≤ a.end_index) →
      (∀ c ∈ cs, c.end_index ≤ t.length) →
      cs.foldl insertOne t = markerSplice t cs := by
  intro cs
  induction cs with
  | nil => intro t _ _; rfl
  | cons c cs ih =>
    intro t hp hL
    have hd : ∀ b ∈ cs, b.end_index ≤ c.end_index := (List.pairwise_cons.mp hp).1
    have hp' : cs.Pairwise (fun a b => b.end_index ≤ a.end_index) :=
      (List.pairwise_cons.mp hp).2
    have he : c.end_index ≤ t.length := hL c (List.mem_cons_self _ _)
    have hL' : ∀ b ∈ cs, b.end_index ≤ (insertOne t c).length := fun b hb =>
      le_trans (hL b (List.mem_cons_of_mem _ hb)) (length_insertOne t c)
    rw [List.foldl_cons, ih (insertOne t c) hp' hL']
    have htake : ∀ b ∈ cs, b.end_index ≤ (t.take c.end_index).length := by
      intro b hb
      rw [List.length_take]
      exact le_min (hd b hb) (le_trans (hd b hb) he)
    have : insertOne t c = t.take c.end_index ++ (citationMarker c ++ t.drop c.end_index) := by
      rw [insertOne, List.append_assoc]
    rw [this, markerSplice_append cs _ _ htake, markerSplice]
    simp [List.append_assoc]

theorem citeGE_trans :
    ∀ a b c : Citation, citeGE a b → citeGE b c → citeGE a c := by
  intro a b c h1 h2
  simp only [citeGE, decide_eq_true_eq] at *
  omega

theorem citeGE_total : ∀ a b : Citation, citeGE a b || citeGE b a := by
  intro a b
  simp only [citeGE, Bool.or_eq_true, decide_eq_true_eq]
  omega

/-- C7 (confirmed): for any text and any citation list whose end offsets are
all `≤` the text's length, `insert_citation_markers` (i) keeps every character
of the original text, in order, in its output, and (ii) equals the splice that
places each citation's marker at that citation's original `end_index`
coordinate of the unmodified text, the citations having been stably sorted by
`(end_index, start_index)` descending.  The function is total, so no
out-of-range error can occur. -/
theorem c7_citation_inserter_offset_safety (text : List Char) (cits : List Citation)
    (hL : ∀ c ∈ cits, c.end_index ≤ text.length) :
    text.Sublist (insert_citation_markers text cits) ∧
    insert_citation_markers text cits = markerSplice text (cits.mergeSort citeGE) := by
  have hsorted : (cits.mergeSort citeGE).Pairwise (fun a b => citeGE a b) :=
    List.sorted_mergeSort citeGE_trans citeGE_total cits
  have hdesc : (cits.mergeSort citeGE).Pairwise (fun a b => b.end_index ≤ a.end_index) := by
    refine hsorted.imp ?_
    intro a b h
    simp only [citeGE, decide_eq_true_eq] at h
    omega
  have hL' : ∀ c ∈ cits.mergeSort citeGE, c.end_index ≤ text.length := by
    intro c hc
    exact hL c (List.mem_mergeSort.mp hc)
  have heq : insert_citation_markers text cits = markerSplice text (cits.mergeSort citeGE) :=
    foldl_insertOne_eq_markerSplice (cits.mergeSort citeGE) text hdesc hL'
  exact ⟨heq ▸ sublist_markerSplice (cits.mergeSort citeGE) text, heq⟩

/-- Witness for C7 at a concrete input: text `"abcdef"` with two citations
ending at offsets 4 and 2. -/
theorem c7_citation_inserter_offset_safety_witness :
    (∀ c ∈ [Citation.mk 1 4 [CiteSegment.mk "L".toList "u".toList],
            Citation.mk 0 2 [CiteSegment.mk "M".toList "v".toList]],
        c.end_index ≤ ("abcdef".toList).length) ∧
    ("abcdef".toList).Sublist (insert_citation_markers "abcdef".toList
      [Citation.mk 1 4 [CiteSegment.mk "L".toList "u".toList],
       Citation.mk 0 2 [CiteSegment.mk "M".toList "v".toList]]) ∧
    insert_citation_markers "abcdef".toList
        [Citation.mk 1 4 [CiteSegment.mk "L".toList "u".toList],
         Citation.mk 0 2 [CiteSegment.mk "M".toList "v".toList]] =
      markerSplice "abcdef".toList
        ([Citation.mk 1 4 [CiteSegment.mk "L".toList "u".toList],
          Citation.mk 0 2 [CiteSegment.mk "M".toList "v".toList]].mergeSort citeGE) := by
  refine ⟨by decide, ?_, ?_⟩
  · exact (c7_citation_inserter_offset_safety "abcdef".toList _ (by decide)).1
  · exact (c7_citation_inserter_offset_safety "abcdef".toList _ (by decide)).2

/-! ## Citation Extractor label derivation (`utils.get_citations`)

```python
for ind in support.grounding_chunk_indices:
    try:
        chunk = candidate.grounding_metadata.grounding_chunks[ind]
        resolved_url = resolved_urls_map.get(chunk.web.uri, None)
        citation["segments"].append({
            "label": chunk.web.title.split(".")[:-1][0],
            "short_url": resolved_url,
            "value": chunk.web.uri,
        })
    except (IndexError, AttributeError, NameError):
        pass
```

`splitDot` embeds Python's `str.split(".")`; `labelOfTitle` embeds the slice
`title.split(".")[:-1][0]`, returning `none` exactly when that expression
raises `IndexError` (i.e. when `[:-1]` is empty because the title holds no
`'.'`). -/

def splitDot : List Char → List (List Char)
  | [] => [[]]
  | c :: rest =>
    if c = '.' then
      [] :: splitDot rest
    else
      match splitDot rest with
      | [] => [[c]]
      | g :: gs => (c :: g) :: gs

def labelOfTitle (title : List Char) : Option (List Char) :=
  match (splitDot title).dropLast with
  | [] => none
  | x :: _ => some x

example : splitDot "a.b.c".toList = ["a".toList, "b".toList, "c".toList] := by decide
example : labelOfTitle "Report.pdf".toList = some "Report".toList := by decide
example : labelOfTitle "NoDots".toList = none := by decide

theorem splitDot_ne_nil : ∀ t : List Char, splitDot t ≠ [] := by
  intro t
  cases t with
  | nil => simp [splitDot]
  | cons c rest =>
    rw [splitDot]
    by_cases h : c = '.'
    · simp [h]
    · rw [if_neg h]
      cases hsplit : splitDot rest with
      | nil => simp
      | cons g gs => simp

theorem splitDot_no_dot : ∀ t : List Char, '.' ∉ t → splitDot t = [t] := by
  intro t
  induction t with
  | nil => intro _; rfl
  | cons c rest ih =>
    intro h
    have hc : c ≠ '.' := fun hc => h (hc ▸ List.mem_cons_self _ _)
    have hr : '.' ∉ rest := fun hr => h (List.mem_cons_of_mem _ hr)
    rw [splitDot, if_neg hc, ih hr]

theorem splitDot_of_dot : ∀ t : List Char, '.' ∈ t →
    ∃ l, splitDot t = t.takeWhile (· != '.') :: l ∧ l ≠ [] := by
  intro t
  induction t with
  | nil => intro h; cases h
  | cons c rest ih =>
    intro h
    by_cases hc : c = '.'
    · subst hc
      refine ⟨splitDot rest, ?_, splitDot_ne_nil rest⟩
      rw [splitDot, if_pos rfl]
      simp [List.takeWhile]
    · have hr : '.' ∈ rest := by
        rcases List.mem_cons.mp h with h1 | h1
        · exact absurd h1.symm hc
        · exact h1
      obtain ⟨l, hl, hne⟩ := ih hr
      refine ⟨l, ?_, hne⟩
      rw [splitDot, if_neg hc, hl]
      have hcb : (c != '.') = true := by simp [hc]
      simp [List.takeWhile, hcb]

theorem labelOfTitle_no_dot (t : List Char) (h : '.' ∉ t) : labelOfTitle t = none := by
  rw [labelOfTitle, splitDot_no_dot t h]
  rfl

theorem labelOfTitle_of_dot (t : List Char) (h : '.' ∈ t) :
    labelOfTitle t = some (t.takeWhile (· != '.')) := by
  obtain ⟨l, hl, hne⟩ := splitDot_of_dot t h
  cases l with
  | nil => exact absurd rfl hne
  | cons y ys =>
    rw [labelOfTitle, hl]
    rfl

/-- One grounding chunk as consumed by the label-derivation loop. -/
structure SChunk where
  uri : String
  title : List Char
deriving DecidableEq

/-- One emitted element of `citation["segments"]`. -/
structure ExtractedSource where
  label : List Char
  short_url : Option String
  value : String
deriving DecidableEq

/-- The `for ind in support.grounding_chunk_indices` loop of `get_citations`:
an out-of-range chunk index or a title whose label slice raises `IndexError`
silently skips that source only. -/
def segmentsOfSupport (chunks : List SChunk) (indices : List Nat)
    (urlMap : List (String × String)) : List ExtractedSource :=
  match indices with
  | [] => []
  | ind :: rest =>
    match chunks[ind]? with
    | none => segmentsOfSupport chunks rest urlMap
    | some chunk =>
      match labelOfTitle chunk.title with
      | none => segmentsOfSupport chunks rest urlMap
      | some lab =>
        ⟨lab, urlMap.lookup chunk.uri, chunk.uri⟩ :: segmentsOfSupport chunks rest urlMap

/-- C9 (corrected): when a title contains a `'.'`, the emitted label is the
substring strictly before the *first* `'.'` — not everything before the last
`'.'` as the claim states for multi-segment titles. -/
theorem c9_label_before_first_dot (t : List Char) (h : '.' ∈ t) :
    labelOfTitle t = some (t.takeWhile (· != '.')) :=
  labelOfTitle_of_dot t h

/-- Witness for C9 at the claim's own example: `"Report.pdf"` yields label
`"Report"`. -/
theorem c9_label_before_first_dot_witness :
    '.' ∈ "Report.pdf".toList ∧
    labelOfTitle "Report.pdf".toList =
      some ("Report.pdf".toList.takeWhile (· != '.')) :=
  ⟨by decide, c9_label_before_first_dot "Report.pdf".toList (by decide)⟩

/-- Counterexample to C9 as stated: the title `"Report.v2.pdf"` has several
`'.'`-separated segments; the code emits `"Report"` (everything before the
*first* `'.'`), not `"Report.v2"` (everything before the last one) as the
claim requires. -/
theorem c9_label_counterexample :
    labelOfTitle "Report.v2.pdf".toList = some "Report".toList ∧
    "Report".toList ≠ "Report.v2".toList := by
  decide

/-- C10 (confirmed): a referenced chunk whose title contains no `'.'`
contributes no source at all — the label slice fails, the failure is swallowed
and nothing (neither the URI nor the full title) is emitted for it; when the
title does contain a `'.'`, the emitted label is exactly the substring before
the first `'.'` (and the source carries the resolved short URL and the raw
URI). -/
theorem c10_extractor_dropped_source (chunks : List SChunk)
    (urlMap : List (String × String)) (i : Nat) (chunk : SChunk)
    (hi : chunks[i]? = some chunk) :
    ('.' ∉ chunk.title → segmentsOfSupport chunks [i] urlMap = []) ∧
    ('.' ∈ chunk.title → segmentsOfSupport chunks [i] urlMap =
      [⟨chunk.title.takeWhile (· != '.'), urlMap.lookup chunk.uri, chunk.uri⟩]) := by
  constructor
  · intro h
    simp only [segmentsOfSupport, hi, labelOfTitle_no_dot chunk.title h]
  · intro h
    simp only [segmentsOfSupport, hi, labelOfTitle_of_dot chunk.title h]

/-- Witness for C10: a two-chunk list where chunk 0 (`"NoDots"`) is dropped
and chunk 1 (`"News.html"`) yields label `"News"`. -/
theorem c10_extractor_dropped_source_witness :
    ([⟨"u0", "NoDots".toList⟩, ⟨"u1", "News.html".toList⟩] :
        List SChunk)[0]? = some ⟨"u0", "NoDots".toList⟩ ∧
    segmentsOfSupport [⟨"u0", "NoDots".toList⟩, ⟨"u1", "News.html".toList⟩]
      [0] [("u1", "s1")] = [] := by
  refine ⟨by decide, ?_⟩
  exact (c10_extractor_dropped_source
    [⟨"u0", "NoDots".toList⟩, ⟨"u1", "News.html".toList⟩]
    [("u1", "s1")] 0 ⟨"u0", "NoDots".toList⟩ (by decide)).1 (by decide)

/-! ## Final substitution (`graph.finalize_answer`)

```python
unique_sources = []
for source in state["sources_gathered"]:
    if source["short_url"] in result.content:
        result.content = result.content.replace(source["short_url"], source["value"])
        unique_sources.append(source)
```

`replaceAll` embeds Python's `str.replace` (left-to-right, non-overlapping
occurrences; the empty pattern inserts the replacement at every position).
The fuel argument, initialised to the text's length, only serves structural
termination: it never runs out, since every step consumes at least one
character of the text. -/

def replaceAllGo (p r : List Char) : Nat → List Char → List Char
  | _, [] => []
  | 0, s => s
  | fuel + 1, c :: rest =>
    if p.isPrefixOf (c :: rest) then
      r ++ replaceAllGo p r fuel ((c :: rest).drop p.length)
    else
      c :: replaceAllGo p r fuel rest

def replaceAll (p r s : List Char) : List Char :=
  if p = [] then r ++ s.flatMap (fun c => c :: r) else replaceAllGo p r s.length s

example : replaceAll "ab".toList "X".toList "cabab".toList = "cXX".toList := by decide
example : replaceAll "aa".toList "X".toList "aaa".toList = "Xa".toList := by decide
example : replaceAll "".toList "X".toList "ab".toList = "XaXbX".toList := by decide

/-- One gathered source as consumed by `finalize_answer`'s substitution loop. -/
structure GatheredSource where
  short_url : List Char
  value : List Char
deriving DecidableEq

/-- The substitution loop of `finalize_answer`: returns the final content and
`unique_sources`, in processing order. -/
def finalize_substitution : List GatheredSource → List Char → List Char × List GatheredSource
  | [], content => (content, [])
  | s :: rest, content =>
    if s.short_url <:+: content then
      ((finalize_substitution rest (replaceAll s.short_url s.value content)).1,
        s :: (finalize_substitution rest (replaceAll s.short_url s.value content)).2)
    else
      finalize_substitution rest content

/-- The content after one loop iteration for source `s`. -/
def stepContent (c : List Char) (s : GatheredSource) : List Char :=
  if s.short_url <:+: c then replaceAll s.short_url s.value c else c

/-- Non-interference hypothesis: every source's membership test
(`source["short_url"] in result.content`) gives the same answer on the
partially substituted text it actually sees as on the original synthesized
text `orig`. -/
def ChecksStable (orig : List Char) : List Char → List GatheredSource → Prop
  | _, [] => True
  | c, s :: rest =>
    ((s.short_url <:+: c) ↔ (s.short_url <:+: orig)) ∧
      ChecksStable orig (stepContent c s) rest

theorem finalize_substitution_filter (orig : List Char) :
    ∀ (sources : List GatheredSource) (c : List Char), ChecksStable orig c sources →
      (finalize_substitution sources c).2 =
        sources.filter (fun s => decide (s.short_url <:+: orig)) ∧
      (finalize_substitution sources c).1 =
        (sources.filter (fun s => decide (s.short_url <:+: orig))).foldl
          (fun t s => replaceAll s.short_url s.value t) c := by
  intro sources
  induction sources with
  | nil => intro c _; exact ⟨rfl, rfl⟩
  | cons s rest ih =>
    intro c hst
    obtain ⟨h1, h2⟩ := hst
    by_cases hb : s.short_url <:+: c
    · have horig : s.short_url <:+: orig := h1.mp hb
      have hstep : stepContent c s = replaceAll s.short_url s.value c := if_pos hb
      have := ih (replaceAll s.short_url s.value c) (hstep ▸ h2)
      rw [finalize_substitution, if_pos hb]
      constructor
      · rw [List.filter_cons, if_pos (by simpa using horig)]
        simpa using this.1
      · rw [List.filter_cons, if_pos (by simpa using horig), List.foldl_cons]
        simpa using this.2
    · have horig : ¬ s.short_url <:+: orig := fun h => hb (h1.mpr h)
      have hstep : stepContent c s = c := if_neg hb
      have := ih c (hstep ▸ h2)
      rw [finalize_substitution, if_neg hb]
      constructor
      · rw [List.filter_cons, if_neg (by simpa using horig)]
        exact this.1
      · rw [List.filter_cons, if_neg (by simpa using horig)]
        exact this.2

/-- C8 (corrected): provided the per-source membership checks are stable —
no earlier replacement destroys or creates an occurrence of a later source's
short URL (`ChecksStable`) — and the gathered list has no duplicate entries,
`finalize_answer`'s loop emits exactly the sources whose short URL occurs in
the synthesized text, each exactly once, drops every source whose short URL
does not occur, and the final text is the left-to-right `str.replace` of each
emitted source's short URL by its original URL.  Without stability the claim
fails (see the counterexample). -/
theorem c8_final_substitution (orig : List Char) (sources : List GatheredSource)
    (hstable : ChecksStable orig orig sources) (hnd : sources.Nodup) :
    (finalize_substitution sources orig).2 =
      sources.filter (fun s => decide (s.short_url <:+: orig)) ∧
    (∀ s ∈ sources, s.short_url <:+: orig →
      ((finalize_substitution sources orig).2.count s = 1)) ∧
    (∀ s ∈ sources, ¬ s.short_url <:+: orig →
      s ∉ (finalize_substitution sources orig).2) ∧
    (finalize_substitution sources orig).1 =
      (sources.filter (fun s => decide (s.short_url <:+: orig))).foldl
        (fun t s => replaceAll s.short_url s.value t) orig := by
  obtain ⟨hlist, hcontent⟩ := finalize_substitution_filter orig sources orig hstable
  refine ⟨hlist, ?_, ?_, hcontent⟩
  · intro s hs hocc
    rw [hlist]
    have hmem : s ∈ sources.filter (fun s => decide (s.short_url <:+: orig)) :=
      List.mem_filter.mpr ⟨hs, by simpa using hocc⟩
    exact List.count_eq_one_of_mem (List.Nodup.filter _ hnd) hmem
  · intro s _ hocc
    rw [hlist]
    intro hmem
    exact hocc (by simpa using (List.mem_filter.mp hmem).2)

/-- Witness for C8 on a concrete input: one gathered source whose short URL
occurs in the synthesized text `"a s1 b"`. -/
theorem c8_final_substitution_witness :
    ChecksStable "a s1 b".toList "a s1 b".toList
        [GatheredSource.mk "s1".toList "u1".toList] ∧
    ([GatheredSource.mk "s1".toList "u1".toList] : List GatheredSource).Nodup ∧
    (finalize_substitution [GatheredSource.mk "s1".toList "u1".toList]
        "a s1 b".toList).2 = [GatheredSource.mk "s1".toList "u1".toList] := by
  have hst : ChecksStable "a s1 b".toList "a s1 b".toList
      [GatheredSource.mk "s1".toList "u1".toList] := by
    refine ⟨Iff.rfl, ?_⟩
    simp [ChecksStable]
  refine ⟨hst, by simp, ?_⟩
  have h := (c8_final_substitution "a s1 b".toList
    [GatheredSource.mk "s1".toList "u1".toList] hst (by simp)).1
  rw [h]
  decide

/-- Counterexample to C8 as stated: sources `A = ("s" ↦ "X")` then
`B = ("st" ↦ "Y")` with synthesized text `"st"`.  `B`'s short URL occurs
literally in the synthesized text, but processing `A` first rewrites the text
to `"Xt"`, so `B`'s occurrence is neither replaced by `B`'s original URL nor
is `B` included in the emitted reference list. -/
theorem c8_final_substitution_counterexample :
    ("st".toList <:+: "st".toList) ∧
    (finalize_substitution
        [GatheredSource.mk "s".toList "X".toList,
         GatheredSource.mk "st".toList "Y".toList] "st".toList).2 =
      [GatheredSource.mk "s".toList "X".toList] ∧
    GatheredSource.mk "st".toList "Y".toList ∉
      (finalize_substitution
        [GatheredSource.mk "s".toList "X".toList,
         GatheredSource.mk "st".toList "Y".toList] "st".toList).2 := by
  decide

/-! ## Configuration (`configuration.Configuration.from_runnable_config`)

```python
configurable = config["configurable"] if config and "configurable" in config else {}
raw_values = {
    name: os.environ.get(name.upper(), configurable.get(name))
    for name in cls.model_fields.keys()
}
values = {k: v for k, v in raw_values.items() if v is not None}
return cls(**values)
```

Each field is resolved independently: `os.environ.get(NAME, configurable.get(name))`
returns the environment value when the variable is set, otherwise the runtime
value (possibly `None`); `None` falls through to the pydantic field default.
The uppercase-key environment lookup and pydantic's string-to-int coercion are
abstracted into per-field `Option` inputs of the declared field type. -/

structure Configuration where
  query_generator_model : String
  reflection_model : String
  answer_model : String
  number_of_initial_queries : Int
  max_research_loops : Int
deriving DecidableEq

/-- Runtime values from `config["configurable"]`, one `Option` per field. -/
structure RuntimeConfigurable where
  query_generator_model : Option String
  reflection_model : Option String
  answer_model : Option String
  number_of_initial_queries : Option Int
  max_research_loops : Option Int

/-- Environment values, one `Option` per field (the field's upper-cased name
is the environment variable's key). -/
structure EnvConfig where
  query_generator_model : Option String
  reflection_model : Option String
  answer_model : Option String
  number_of_initial_queries : Option Int
  max_research_loops : Option Int

/-- `os.environ.get(name.upper(), configurable.get(name))`, with `None`
falling through to the pydantic default. -/
def resolveField {α : Type} (env runtime : Option α) (dflt : α) : α :=
  (env.orElse (fun _ => runtime)).getD dflt

def Configuration.from_runnable_config (env : EnvConfig)
    (configurable : RuntimeConfigurable) : Configuration where
  query_generator_model :=
    resolveField env.query_generator_model configurable.query_generator_model
      "gemini-2.0-flash"
  reflection_model :=
    resolveField env.reflection_model configurable.reflection_model
      "gemini-2.5-flash"
  answer_model :=
    resolveField env.answer_model configurable.answer_model "gemini-2.5-pro"
  number_of_initial_queries :=
    resolveField env.number_of_initial_queries
      configurable.number_of_initial_queries 3
  max_research_loops :=
    resolveField env.max_research_loops configurable.max_research_loops 2

/-- C5 (code bug): with `NUMBER_OF_INITIAL_QUERIES=5` in the environment and
`number_of_initial_queries=7` passed at runtime, `from_runnable_config`
returns 5 — the environment wins over the runtime value, contradicting both
the claim and the function's own docstring ("运行时参数 > 环境变量 > 默认值").
The env-only and neither-set cases behave as claimed (environment value,
then declared defaults 3 and 2). -/
theorem c5_env_overrides_runtime :
    (Configuration.from_runnable_config
        ⟨none, none, none, some 5, none⟩
        ⟨none, none, none, some 7, none⟩).number_of_initial_queries = 5 ∧
    (Configuration.from_runnable_config
        ⟨none, none, none, some 5, none⟩
        ⟨none, none, none, some 7, none⟩).number_of_initial_queries ≠ 7 ∧
    (Configuration.from_runnable_config
        ⟨none, none, none, none, none⟩
        ⟨none, none, none, some 7, none⟩).number_of_initial_queries = 7 ∧
    Configuration.from_runnable_config
        ⟨none, none, none, none, none⟩
        ⟨none, none, none, none, none⟩ =
      ⟨"gemini-2.0-flash", "gemini-2.5-flash", "gemini-2.5-pro", 3, 2⟩ := by
  refine ⟨rfl, by decide, rfl, rfl⟩

/-! ## Research Loop Controller (`graph.py`)

The graph is `START → generate_query → (fan-out) web_research* → reflection →
evaluate_research → (web_research* → reflection → …)* → finalize_answer`.
State channels follow the reducers declared in `state.py`:

* `search_query : Annotated[list, operator.add]` — `generate_query` returns
  `{"search_query": result.query}` (the whole generated list) and *each*
  `web_research` task returns `{"search_query": [state["search_query"]]}`
  (its echoed query), so after the initial fan-in the channel holds the
  initial queries twice;
* `follow_up_queries : Annotated[list, operator.add]` — every `reflection`
  appends its fresh follow-up queries to the channel, and
  `evaluate_research` dispatches one `Send("web_research", …)` per entry of
  the *accumulated* channel value;
* `research_loop_count` — `reflection` sets it to previous + 1 before
  `evaluate_research` compares it with `max_research_loops`;
* `number_of_ran_queries` — `reflection` sets it to
  `len(state["search_query"])`.

A run is driven by the configured `max_research_loops` `M`, the initial
generated queries, and the sequence of reflection outcomes produced by the
evaluator.  `runLoop` carries the accumulated `follow_up_queries` channel,
the accumulated `search_query` channel, `research_loop_count`, and a ghost
counter `issued` of retrieval tasks dispatched so far; it records every
dispatched batch (task id, query) and, per reflection, the pair
`(number_of_ran_queries, issued)`.  If `evaluate_research` yields an empty
`Send` batch the graph schedules no further node and the run ends without
reaching `finalize_answer`. -/

inductive Route where
  | finalize : Route
  | dispatch : List (Nat × String) → Route
deriving DecidableEq

/-- `[Send("web_research", {"search_query": q, "id": base + idx}) for idx, q
in enumerate(queries)]`; the initial fan-out uses `base = 0`, follow-up
batches use `base = number_of_ran_queries`. -/
def makeBatch (base : Nat) (qs : List String) : List (Nat × String) :=
  qs.enum.map (fun p => (base + p.1, p.2))

/-- `evaluate_research` (graph.py:285-334). -/
def evaluate_research (is_sufficient : Bool)
    (research_loop_count max_research_loops number_of_ran_queries : Nat)
    (follow_up_queries : List String) : Route :=
  if is_sufficient || decide (research_loop_count ≥ max_research_loops) then
    Route.finalize
  else
    Route.dispatch (makeBatch number_of_ran_queries follow_up_queries)

structure ReflectionOutcome where
  is_sufficient : Bool
  follow_up_queries : List String
deriving DecidableEq

structure RunResult where
  finalized : Bool
  rounds : Nat
  batches : List (List (Nat × String))
  reflectionLog : List (Nat × Nat)
deriving DecidableEq

def runLoop (M : Nat) : List ReflectionOutcome → List String → List String →
    Nat → Nat → RunResult
  | [], _, _, _, _ => ⟨false, 0, [], []⟩
  | o :: rest, fuChan, sq, count, issued =>
    match evaluate_research o.is_sufficient (count + 1) M sq.length
        (fuChan ++ o.follow_up_queries) with
    | Route.finalize => ⟨true, 1, [], [(sq.length, issued)]⟩
    | Route.dispatch batch =>
      if batch.isEmpty then
        ⟨false, 1, [], [(sq.length, issued)]⟩
      else
        let fu := fuChan ++ o.follow_up_queries
        let r := runLoop M rest fu (sq ++ fu) (count + 1) (issued + fu.length)
        ⟨r.finalized, r.rounds + 1, batch :: r.batches,
          (sq.length, issued) :: r.reflectionLog⟩

/-- A full run: `generate_query` writes the initial queries into the
`search_query` channel, the initial fan-out dispatches one task per query
with `id = idx`, and each completed task echoes its query into the channel
before the first reflection. -/
def runAgent (M : Nat) (initialQueries : List String)
    (outcomes : List ReflectionOutcome) : RunResult :=
  let r := runLoop M outcomes [] (initialQueries ++ initialQueries) 0
    initialQueries.length
  ⟨r.finalized, r.rounds, makeBatch 0 initialQueries :: r.batches,
    r.reflectionLog⟩

example :
    runAgent 0 ["q"] [⟨false, ["f"]⟩] =
      ⟨true, 1, [[(0, "q")]], [(2, 1)]⟩ := by decide

example :
    runAgent 2 ["a", "b"] [⟨false, ["f"]⟩, ⟨false, ["g"]⟩] =
      ⟨true, 2, [[(0, "a"), (1, "b")], [(4, "f")]], [(4, 2), (5, 3)]⟩ := by
  decide

theorem makeBatch_length (b : Nat) (qs : List String) :
    (makeBatch b qs).length = qs.length := by
  simp [makeBatch]

theorem makeBatch_getElem? (b : Nat) (qs : List String) (i : Nat) :
    (makeBatch b qs)[i]? = (qs[i]?).map (fun q => (b + i, q)) := by
  rw [makeBatch, List.getElem?_map, List.getElem?_enum]
  cases qs[i]? <;> rfl

theorem evaluate_research_finalize_iff (s : Bool) (cnt M nran : Nat)
    (fu : List String) :
    evaluate_research s cnt M nran fu = Route.finalize ↔ (s = true ∨ M ≤ cnt) := by
  rw [evaluate_research]
  by_cases h : (s || decide (cnt ≥ M)) = true
  · simp only [if_pos h]
    simpa using h
  · simp only [if_neg h]
    constructor
    · intro hc; cases hc
    · intro hc
      exact absurd (by simpa using hc) h

/-- C2 (confirmed): `evaluate_research` routes to `finalize_answer` iff
`is_sufficient` is true or `research_loop_count ≥ max_research_loops`;
otherwise it dispatches exactly one task per `follow_up_queries` entry with
`id = number_of_ran_queries + index`; and a run whose first reflection says
sufficient with `maxResearchLoops = 2` finalizes after the initial batch
only. -/
theorem c2_routing_decision :
    (∀ (s : Bool) (cnt M nran : Nat) (fu : List String),
        evaluate_research s cnt M nran fu = Route.finalize ↔ (s = true ∨ M ≤ cnt)) ∧
    (∀ (s : Bool) (cnt M nran : Nat) (fu : List String), s = false → cnt < M →
        evaluate_research s cnt M nran fu = Route.dispatch (makeBatch nran fu) ∧
        (makeBatch nran fu).length = fu.length ∧
        ∀ i : Nat, (makeBatch nran fu)[i]? = (fu[i]?).map (fun q => (nran + i, q))) ∧
    (∀ (qs fs : List String) (rest : List ReflectionOutcome),
        (runAgent 2 qs (⟨true, fs⟩ :: rest)).finalized = true ∧
        (runAgent 2 qs (⟨true, fs⟩ :: rest)).rounds = 1 ∧
        (runAgent 2 qs (⟨true, fs⟩ :: rest)).batches = [makeBatch 0 qs]) := by
  refine ⟨evaluate_research_finalize_iff, ?_, ?_⟩
  · intro s cnt M nran fu hs hlt
    subst hs
    have hcond : ((false : Bool) || decide (cnt ≥ M)) = false := by
      simp
      omega
    refine ⟨?_, makeBatch_length nran fu, makeBatch_getElem? nran fu⟩
    rw [evaluate_research]
    rw [hcond]
    rfl
  · intro qs fs rest
    have hfin : evaluate_research true 1 2 (qs.length + qs.length) fs =
        Route.finalize := by
      rw [evaluate_research]
      simp
    refine ⟨?_, ?_, ?_⟩ <;>
      simp [runAgent, runLoop, hfin]

/-- Witness for C2: an insufficient outcome below the loop bound dispatches
the follow-up batch with ids based at `number_of_ran_queries = 4`. -/
theorem c2_routing_decision_witness :
    ((false : Bool) = false ∧ 1 < 2) ∧
    evaluate_research false 1 2 4 ["f", "g"] =
      Route.dispatch (makeBatch 4 ["f", "g"]) :=
  ⟨⟨rfl, by decide⟩,
    (c2_routing_decision.2.1 false 1 2 4 ["f", "g"] rfl (by decide)).1⟩

theorem runLoop_reaches_finalize (M : Nat) :
    ∀ (outs : List ReflectionOutcome) (fuChan sq : List String)
      (count issued : Nat),
      max (M - count) 1 ≤ outs.length →
      (∀ o ∈ outs, o.follow_up_queries ≠ []) →
      (runLoop M outs fuChan sq count issued).finalized = true ∧
      (runLoop M outs fuChan sq count issued).rounds ≤ max (M - count) 1 := by
  intro outs
  induction outs with
  | nil =>
    intro fuChan sq count issued hlen _
    exfalso
    simp only [List.length_nil] at hlen
    omega
  | cons o rest ih =>
    intro fuChan sq count issued hlen hfu
    by_cases hcond : (o.is_sufficient || decide (count + 1 ≥ M)) = true
    · have hev : evaluate_research o.is_sufficient (count + 1) M sq.length
          (fuChan ++ o.follow_up_queries) = Route.finalize := by
        rw [evaluate_research, if_pos hcond]
      simp only [runLoop, hev]
      refine ⟨trivial, ?_⟩
      omega
    · have hM : count + 1 < M := by
        simp only [Bool.or_eq_true, decide_eq_true_eq, not_or] at hcond
        omega
      have hev : evaluate_research o.is_sufficient (count + 1) M sq.length
          (fuChan ++ o.follow_up_queries) =
            Route.dispatch (makeBatch sq.length (fuChan ++ o.follow_up_queries)) := by
        rw [evaluate_research, if_neg hcond]
      have hfu' : fuChan ++ o.follow_up_queries ≠ [] := by
        have : o.follow_up_queries ≠ [] := hfu o (List.mem_cons_self _ _)
        intro h
        exact this (List.append_eq_nil.mp h).2
      have hne : ¬ (makeBatch sq.length (fuChan ++ o.follow_up_queries)).isEmpty = true := by
        rw [List.isEmpty_iff]
        intro h
        have := makeBatch_length sq.length (fuChan ++ o.follow_up_queries)
        rw [h] at this
        exact hfu' (List.length_eq_zero.mp this.symm)
      have hlen' : max (M - (count + 1)) 1 ≤ rest.length := by
        simp only [List.length_cons] at hlen
        omega
      have hfu'' : ∀ o' ∈ rest, o'.follow_up_queries ≠ [] := fun o' ho' =>
        hfu o' (List.mem_cons_of_mem _ ho')
      obtain ⟨hf, hr⟩ := ih (fuChan ++ o.follow_up_queries)
        (sq ++ (fuChan ++ o.follow_up_queries)) (count + 1)
        (issued + (fuChan ++ o.follow_up_queries).length) hlen' hfu''
      simp only [runLoop, hev, if_neg hne]
      exact ⟨hf, by omega⟩

/-- C1 (corrected): provided the evaluator keeps answering (at least
`max M 1` reflection outcomes, each with non-empty follow-up queries), the
controller reaches `finalize_answer` after at most `max M 1` reflection
rounds — not `M` as the claim states: the graph runs `reflection`
unconditionally once after the initial batch, so for `M = 0` one reflection
round still occurs before the forced finalize (see the counterexample). -/
theorem c1_loop_termination_bound (M : Nat) (qs : List String)
    (outs : List ReflectionOutcome)
    (hlen : max M 1 ≤ outs.length)
    (hfu : ∀ o ∈ outs, o.follow_up_queries ≠ []) :
    (runAgent M qs outs).finalized = true ∧
    (runAgent M qs outs).rounds ≤ max M 1 := by
  have h := runLoop_reaches_finalize M outs [] (qs ++ qs) 0 qs.length
    (by simpa using hlen) hfu
  simpa [runAgent] using h

/-- Witness for C1: `M = 2` with two insufficient outcomes — the run
finalizes within `max 2 1 = 2` reflection rounds. -/
theorem c1_loop_termination_bound_witness :
    (max 2 1 ≤ ([⟨false, ["f"]⟩, ⟨false, ["g"]⟩] : List ReflectionOutcome).length ∧
      (∀ o ∈ ([⟨false, ["f"]⟩, ⟨false, ["g"]⟩] : List ReflectionOutcome),
        o.follow_up_queries ≠ [])) ∧
    (runAgent 2 ["q"] [⟨false, ["f"]⟩, ⟨false, ["g"]⟩]).finalized = true ∧
    (runAgent 2 ["q"] [⟨false, ["f"]⟩, ⟨false, ["g"]⟩]).rounds ≤ max 2 1 :=
  ⟨⟨by decide, by decide⟩,
    c1_loop_termination_bound 2 ["q"] [⟨false, ["f"]⟩, ⟨false, ["g"]⟩]
      (by decide) (by decide)⟩

/-- Counterexample to C1 as stated: with `maxResearchLoops = 0` and an
evaluator that reports insufficiency with a non-empty follow-up list, the run
still performs one reflection round before finalizing — more than the claimed
bound of `M = 0` rounds. -/
theorem c1_loop_termination_counterexample :
    (runAgent 0 ["q"] [⟨false, ["f"]⟩]).finalized = true ∧
    (runAgent 0 ["q"] [⟨false, ["f"]⟩]).rounds = 1 ∧
    ¬ ((runAgent 0 ["q"] [⟨false, ["f"]⟩]).rounds ≤ 0) := by
  decide

theorem makeBatch_map_fst (b : Nat) (qs : List String) :
    (makeBatch b qs).map Prod.fst = List.range' b qs.length := by
  rw [makeBatch, List.map_map]
  have h2 : (Prod.fst ∘ fun p : Nat × String => (b + p.1, p.2)) =
      ((b + ·) ∘ Prod.fst) := rfl
  rw [h2, ← List.map_map, List.enum_map_fst, List.range_eq_range',
    List.map_add_range', Nat.add_zero]

theorem mem_range'_bounds {x s n : Nat} (h : x ∈ List.range' s n) :
    s ≤ x ∧ x < s + n := by
  rw [List.mem_range'] at h
  obtain ⟨i, hi, rfl⟩ := h
  omega

theorem runLoop_ids_ge (M : Nat) :
    ∀ (outs : List ReflectionOutcome) (fuChan sq : List String)
      (count issued : Nat) (x : Nat),
      x ∈ ((runLoop M outs fuChan sq count issued).batches.flatten).map Prod.fst →
      sq.length ≤ x := by
  intro outs
  induction outs with
  | nil =>
    intro fuChan sq count issued x hx
    simp [runLoop] at hx
  | cons o rest ih =>
    intro fuChan sq count issued x hx
    by_cases hcond : (o.is_sufficient || decide (count + 1 ≥ M)) = true
    · have hev : evaluate_research o.is_sufficient (count + 1) M sq.length
          (fuChan ++ o.follow_up_queries) = Route.finalize := by
        rw [evaluate_research, if_pos hcond]
      simp [runLoop, hev] at hx
    · have hev : evaluate_research o.is_sufficient (count + 1) M sq.length
          (fuChan ++ o.follow_up_queries) =
            Route.dispatch (makeBatch sq.length (fuChan ++ o.follow_up_queries)) := by
        rw [evaluate_research, if_neg hcond]
      by_cases hemp : (makeBatch sq.length (fuChan ++ o.follow_up_queries)).isEmpty = true
      · simp [runLoop, hev, hemp] at hx
      · simp only [runLoop, hev, if_neg hemp, List.flatten_cons, List.map_append,
          List.mem_append] at hx
        rcases hx with hx | hx
        · rw [makeBatch_map_fst] at hx
          exact (mem_range'_bounds hx).1
        · have h2 := ih _ _ _ _ x hx
          rw [List.length_append] at h2
          omega

theorem runLoop_ids_nodup (M : Nat) :
    ∀ (outs : List ReflectionOutcome) (fuChan sq : List String)
      (count issued : Nat),
      (((runLoop M outs fuChan sq count issued).batches.flatten).map Prod.fst).Nodup := by
  intro outs
  induction outs with
  | nil =>
    intro fuChan sq count issued
    simp [runLoop]
  | cons o rest ih =>
    intro fuChan sq count issued
    by_cases hcond : (o.is_sufficient || decide (count + 1 ≥ M)) = true
    · have hev : evaluate_research o.is_sufficient (count + 1) M sq.length
          (fuChan ++ o.follow_up_queries) = Route.finalize := by
        rw [evaluate_research, if_pos hcond]
      simp [runLoop, hev]
    · have hev : evaluate_research o.is_sufficient (count + 1) M sq.length
          (fuChan ++ o.follow_up_queries) =
            Route.dispatch (makeBatch sq.length (fuChan ++ o.follow_up_queries)) := by
        rw [evaluate_research, if_neg hcond]
      by_cases hemp : (makeBatch sq.length (fuChan ++ o.follow_up_queries)).isEmpty = true
      · simp [runLoop, hev, hemp]
      · simp only [runLoop, hev, if_neg hemp, List.flatten_cons, List.map_append]
        rw [List.nodup_append]
        refine ⟨?_, ih _ _ _ _, ?_⟩
        · rw [makeBatch_map_fst]
          exact List.nodup_range' _ _
        · intro x hx1 hx2
          rw [makeBatch_map_fst] at hx1
          have h1 := (mem_range'_bounds hx1).2
          have h2 := runLoop_ids_ge M rest _ _ _ _ x hx2
          rw [List.length_append] at h2
          omega

/-- C3 (confirmed): across a full run — any number of loop iterations, any
evaluator outputs — no two dispatched retrieval tasks receive the same id:
the initial batch takes ids `0..N-1` by enumeration and every follow-up
batch's ids `number_of_ran_queries + index` collide neither with each other
nor with any earlier id, because `number_of_ran_queries` (the length of the
accumulated `search_query` channel) always strictly exceeds every previously
assigned id. -/
theorem c3_task_id_uniqueness (M : Nat) (qs : List String)
    (outs : List ReflectionOutcome) :
    (((runAgent M qs outs).batches.flatten).map Prod.fst).Nodup := by
  simp only [runAgent, List.flatten_cons, List.map_append]
  rw [List.nodup_append]
  refine ⟨?_, runLoop_ids_nodup M outs [] (qs ++ qs) 0 qs.length, ?_⟩
  · rw [makeBatch_map_fst]
    exact List.nodup_range' _ _
  · intro x hx1 hx2
    rw [makeBatch_map_fst] at hx1
    have h1 := (mem_range'_bounds hx1).2
    have h2 := runLoop_ids_ge M outs [] (qs ++ qs) 0 qs.length x hx2
    rw [List.length_append] at h2
    omega

theorem runLoop_log (M : Nat) :
    ∀ (outs : List ReflectionOutcome) (fuChan sq : List String)
      (count issued d : Nat),
      sq.length = issued + d →
      ∀ e ∈ (runLoop M outs fuChan sq count issued).reflectionLog,
        e.1 = e.2 + d := by
  intro outs
  induction outs with
  | nil =>
    intro fuChan sq count issued d _ e he
    simp [runLoop] at he
  | cons o rest ih =>
    intro fuChan sq count issued d hsq e he
    by_cases hcond : (o.is_sufficient || decide (count + 1 ≥ M)) = true
    · have hev : evaluate_research o.is_sufficient (count + 1) M sq.length
          (fuChan ++ o.follow_up_queries) = Route.finalize := by
        rw [evaluate_research, if_pos hcond]
      simp only [runLoop, hev, List.mem_singleton] at he
      subst he
      exact hsq
    · have hev : evaluate_research o.is_sufficient (count + 1) M sq.length
          (fuChan ++ o.follow_up_queries) =
            Route.dispatch (makeBatch sq.length (fuChan ++ o.follow_up_queries)) := by
        rw [evaluate_research, if_neg hcond]
      by_cases hemp : (makeBatch sq.length (fuChan ++ o.follow_up_queries)).isEmpty = true
      · simp only [runLoop, hev, if_pos hemp, List.mem_singleton] at he
        subst he
        exact hsq
      · simp only [runLoop, hev, if_neg hemp, List.mem_cons] at he
        rcases he with he | he
        · subst he
          exact hsq
        · refine ih _ _ _ _ d ?_ e he
          rw [List.length_append]
          omega

/-- C6 (corrected): at every reflection, the computed `number_of_ran_queries`
(`len(state["search_query"])`) equals the number of search queries issued so
far **plus the initial query count**: `generate_query` writes the whole
generated list into the accumulating `search_query` channel and each
completed `web_research` task appends its echoed query again, so the initial
batch is counted twice.  In the log, a reflection's entry is
`(number_of_ran_queries, tasks issued so far)`. -/
theorem c6_ran_query_count (M : Nat) (qs : List String)
    (outs : List ReflectionOutcome) :
    ∀ e ∈ (runAgent M qs outs).reflectionLog, e.1 = e.2 + qs.length := by
  simp only [runAgent]
  intro e he
  exact runLoop_log M outs [] (qs ++ qs) 0 qs.length qs.length (by simp) e he

/-- Witness for C6: in a one-initial-query run, the first reflection computes
`number_of_ran_queries = 2` with 1 task issued, and `2 = 1 + 1`. -/
theorem c6_ran_query_count_witness :
    ((2, 1) ∈ (runAgent 2 ["a"] [⟨true, []⟩]).reflectionLog) ∧
    (2 : Nat) = 1 + (["a"] : List String).length :=
  ⟨by decide, c6_ran_query_count 2 ["a"] [⟨true, []⟩] (2, 1) (by decide)⟩

/-- Counterexample to C6 as stated: with one initial query, the first
reflection computes `number_of_ran_queries = 2` although exactly one search
query has been issued as a retrieval task. -/
theorem c6_ran_query_count_counterexample :
    (runAgent 2 ["a"] [⟨true, []⟩]).reflectionLog = [(2, 1)] ∧ (2 : Nat) ≠ 1 := by
  decide

end Agent
